import Mathlib

/-!
Shallow embedding of `mcPrd.h` (payoff layer of a Monte Carlo pricing
engine): the products European, Europeans, UOC and ContingentBond.

Modelling conventions:
* The C++ numeric template parameter `T` (plain double or AAD number) is
  modelled by `ℚ`, exact arithmetic standing for the real-number semantics
  of the formulas.  `Time` (a `double` year fraction) is also `ℚ`.
* Every product's dataline requests at most one forward, one discount and
  one libor per timeline node, and the payoff code only ever reads
  `forwards[0]`, `discounts[0]`, `libors[0]` and `numeraire`.  A scenario
  entry is therefore modelled with four scalar fields.
* A scenario path is a `List ScenEntry`; payoff functions that read
  `path[0]` return `Option` and yield `none` on an empty path, where the
  C++ code would index out of bounds.
* The timeline-building `while` loops of UOC and ContingentBond are
  modelled by structural recursion on an explicit iteration budget
  (`schedFuel`), later proved sufficient whenever the frequency is
  positive, so the fueled function agrees with the C++ loop.
-/

/-- One node of a scenario path: the single forward, discount and libor
requested at that node, and the numeraire. -/
structure ScenEntry where
  fwd : ℚ
  disc : ℚ
  libor : ℚ
  num : ℚ
deriving DecidableEq, Repr

instance : Inhabited ScenEntry := ⟨⟨0, 0, 0, 0⟩⟩

/-- `#define ONE_HOUR 0.000114469` from `mcPrd.h`, as an exact rational. -/
def ONE_HOUR : ℚ := 114469 / 1000000000

/-- `#define ONE_DAY 0.003773585` from `mcPrd.h`, as an exact rational. -/
def ONE_DAY : ℚ := 3773585 / 1000000000

/-! ## European -/

/-- `European::European`: the timeline is the single exercise date. -/
def europeanTimeline (exerciseDate : ℚ) : List ℚ := [exerciseDate]

/-- `European::payoffs`: writes the single value
`max(path[0].forwards[0] - strike, 0) * path[0].discounts[0] / path[0].numeraire`.
Reading `path[0]` on an empty path is out of bounds, modelled as `none`. -/
def europeanPayoffs (strike : ℚ) (path : List ScenEntry) : Option (List ℚ) :=
  match path with
  | [] => none
  | e :: _ => some [max (e.fwd - strike) 0 * e.disc / e.num]

/-! ## UOC (up-and-out call) -/

/-- Iteration budget for the timeline `while` loops: at least the number of
steps of size `freq` between `sys` and `mat`, plus one. -/
def schedFuel (sys mat freq : ℚ) : Nat := ⌈(mat - sys) / freq⌉.toNat + 1

/-- The barrier-monitoring loop of `UOC::UOC`:
`while (maturity - t > ONE_HOUR) { push t; t += monitorFreq; }`,
with an explicit iteration budget. -/
def uocLoop (mat freq : ℚ) : Nat → ℚ → List ℚ
  | 0, _ => []
  | n + 1, t => if ONE_HOUR < mat - t then t :: uocLoop mat freq n (t + freq) else []

/-- The monitoring nodes pushed by the loop of `UOC::UOC`, starting the
iteration at `systemTime + monitorFreq`. -/
def uocMonitorNodes (sys mat freq : ℚ) : List ℚ :=
  uocLoop mat freq (schedFuel sys mat freq) (sys + freq)

/-- `UOC::UOC` timeline: today (`sys`), the monitoring nodes, then maturity. -/
def uocTimeline (sys mat freq : ℚ) : List ℚ :=
  sys :: (uocMonitorNodes sys mat freq ++ [mat])

/-- The `alive` loop of `UOC::payoffs`: walk the path; a forward above
`barrier + smooth` kills the option and breaks out of the loop; a forward in
the fuzzy band multiplies `alive` by the linear ramp. -/
def uocAlive (barrier smooth : ℚ) (alive : ℚ) : List ScenEntry → ℚ
  | [] => alive
  | e :: rest =>
      if barrier + smooth < e.fwd then 0
      else if barrier - smooth < e.fwd then
        uocAlive barrier smooth (alive * ((barrier + smooth - e.fwd) / (2 * smooth))) rest
      else uocAlive barrier smooth alive rest

/-- `UOC::payoffs`: `smooth` is the plain-real value of the first forward
times the smoothing fraction; output is
`[alive * vanilla, vanilla]` with `vanilla = max(fwd_last - strike, 0) / num_last`. -/
def uocPayoffs (strike barrier sf : ℚ) (path : List ScenEntry) : Option (List ℚ) :=
  match path with
  | [] => none
  | e :: rest =>
      let smooth := e.fwd * sf
      let last := (e :: rest).getLast (List.cons_ne_nil e rest)
      let vanilla := max (last.fwd - strike) 0 / last.num
      some [uocAlive barrier smooth 1 (e :: rest) * vanilla, vanilla]

/-! ## Europeans (batched strip) -/

/-- `Europeans::Europeans`: the timeline is the (ascending) list of map keys. -/
def europeansTimeline (options : List (ℚ × List ℚ)) : List ℚ :=
  options.map Prod.fst

/-- The per-maturity strike lists stored by `Europeans::Europeans`. -/
def europeansStrikes (options : List (ℚ × List ℚ)) : List (List ℚ) :=
  options.map Prod.snd

/-- `Europeans::payoffs`: maturity major; for each maturity `i`, transform its
strikes with `max(spot_i - k, 0) / num_i` and advance the output iterator. -/
def europeansPayoffs : List (List ℚ) → List ScenEntry → List ℚ
  | ks :: krest, e :: erest =>
      ks.map (fun k => max (e.fwd - k) 0 / e.num) ++ europeansPayoffs krest erest
  | _, _ => []

/-! ## ContingentBond -/

/-- The payment-schedule loop of `ContingentBond::ContingentBond`:
`while (maturity - t > ONE_DAY) { dt.push(t - timeline.back()); timeline.push(t); t += payFreq; }`,
returning the pushed timeline nodes and coverages; `prev` is the current
`timeline.back()`. -/
def cbLoop (mat freq : ℚ) : Nat → ℚ → ℚ → List ℚ × List ℚ
  | 0, _, _ => ([], [])
  | n + 1, t, prev =>
      if ONE_DAY < mat - t then
        let r := cbLoop mat freq n (t + freq) t
        (t :: r.1, (t - prev) :: r.2)
      else ([], [])

/-- The payment nodes and coverages pushed by the loop of
`ContingentBond::ContingentBond`, starting at `systemTime + payFreq`. -/
def cbSched (sys mat freq : ℚ) : List ℚ × List ℚ :=
  cbLoop mat freq (schedFuel sys mat freq) (sys + freq) sys

/-- `ContingentBond::ContingentBond` timeline: today, the payment nodes,
then maturity. -/
def cbTimeline (sys mat freq : ℚ) : List ℚ :=
  sys :: ((cbSched sys mat freq).1 ++ [mat])

/-- `ContingentBond::ContingentBond` coverages `myDt`: one per payment node,
plus the final `maturity - timeline.back()`. -/
def cbDt (sys mat freq : ℚ) : List ℚ :=
  (cbSched sys mat freq).2 ++ [mat - (cbSched sys mat freq).1.getLastD sys]

/-- The smoothed digital of `ContingentBond::payoffs`: `1` above the band,
`0` below, the linear interpolation inside. -/
def cbDigital (smooth s0 s1 : ℚ) : ℚ :=
  if smooth < s1 - s0 then 1
  else if s1 - s0 < -smooth then 0
  else (s1 - s0 + smooth) / (2 * smooth)

/-- The digital with its interior division guarded: `none` exactly when the
interpolation branch is reached with a zero divisor `2 * smooth`. -/
def cbDigitalChecked (smooth s0 s1 : ℚ) : Option ℚ :=
  if smooth < s1 - s0 then some 1
  else if s1 - s0 < -smooth then some 0
  else if 2 * smooth = 0 then none
  else some ((s1 - s0 + smooth) / (2 * smooth))

/-- The accrual loop of `ContingentBond::payoffs`: over each consecutive pair
of path nodes, add `digital * (libor + cpn) * dt_i / num_end`. -/
def cbAccrue (cpn smooth : ℚ) : List ScenEntry → List ℚ → ℚ
  | e0 :: e1 :: rest, dt0 :: dtrest =>
      cbDigital smooth e0.fwd e1.fwd * (e0.libor + cpn) * dt0 / e1.num
        + cbAccrue cpn smooth (e1 :: rest) dtrest
  | _, _ => 0

/-- `ContingentBond::payoffs`: one output value, the accrued coupons plus the
redemption `1 / numeraire_final`; `smooth` is the plain-real value of the
first forward times the smoothing fraction. -/
def cbPayoffs (cpn sf : ℚ) (dt : List ℚ) (path : List ScenEntry) : Option (List ℚ) :=
  match path with
  | [] => none
  | e :: rest =>
      let smooth := e.fwd * sf
      let last := (e :: rest).getLast (List.cons_ne_nil e rest)
      some [cbAccrue cpn smooth (e :: rest) dt + 1 / last.num]

/-- Consecutive differences of a list of times, used to state the coverage
invariant of `ContingentBond`. -/
def diffs : List ℚ → List ℚ
  | a :: b :: rest => (b - a) :: diffs (b :: rest)
  | _ => []

/-! ## Helper lemmas about the schedule loops -/

lemma uocLoop_mem (mat freq : ℚ) :
    ∀ (fuel : Nat) (t x : ℚ), x ∈ uocLoop mat freq fuel t → ONE_HOUR < mat - x := by
  intro fuel
  induction fuel with
  | zero => intro t x hx; simp [uocLoop] at hx
  | succ n ih =>
      intro t x hx
      by_cases h : ONE_HOUR < mat - t
      · rw [uocLoop, if_pos h] at hx
        rcases List.mem_cons.mp hx with rfl | hx
        · exact h
        · exact ih _ x hx
      · rw [uocLoop, if_neg h] at hx; simp at hx

lemma uocLoop_chain (mat freq : ℚ) :
    ∀ (fuel : Nat) (t : ℚ),
      List.Chain (fun a b => b = a + freq) (t - freq) (uocLoop mat freq fuel t) := by
  intro fuel
  induction fuel with
  | zero => intro t; simp [uocLoop]
  | succ n ih =>
      intro t
      by_cases h : ONE_HOUR < mat - t
      · rw [uocLoop, if_pos h]
        refine List.Chain.cons (by ring) ?_
        have := ih (t + freq)
        simpa using this
      · rw [uocLoop, if_neg h]; exact List.Chain.nil

lemma uocLoop_stop (mat freq : ℚ) :
    ∀ (fuel : Nat) (t : ℚ), mat - t - ONE_HOUR < (fuel : ℚ) * freq →
      mat - (t + ((uocLoop mat freq fuel t).length : ℚ) * freq) ≤ ONE_HOUR := by
  intro fuel
  induction fuel with
  | zero =>
      intro t ht
      simp only [uocLoop, List.length_nil, Nat.cast_zero, zero_mul, add_zero]
      push_cast at ht
      linarith
  | succ n ih =>
      intro t ht
      by_cases h : ONE_HOUR < mat - t
      · rw [uocLoop, if_pos h]
        have ht' : mat - (t + freq) - ONE_HOUR < (n : ℚ) * freq := by
          push_cast at ht ⊢; linarith
        have := ih (t + freq) ht'
        simp only [List.length_cons]
        push_cast
        push_cast at this
        linarith
      · rw [uocLoop, if_neg h]
        simp only [List.length_nil, Nat.cast_zero, zero_mul, add_zero]
        linarith

lemma schedFuel_mul (sys mat freq : ℚ) (hf : 0 < freq) :
    mat - sys ≤ (schedFuel sys mat freq : ℚ) * freq := by
  unfold schedFuel
  set c : ℤ := ⌈(mat - sys) / freq⌉ with hc
  have h1 : (mat - sys) / freq ≤ (c : ℚ) := Int.le_ceil _
  have h2 : (c : ℚ) ≤ (c.toNat : ℚ) := by
    exact_mod_cast Int.self_le_toNat c
  have h3 : (mat - sys) / freq ≤ (c.toNat : ℚ) := le_trans h1 h2
  have h4 : mat - sys ≤ (c.toNat : ℚ) * freq := (div_le_iff₀ hf).mp h3
  push_cast
  nlinarith

lemma cbLoop_mem (mat freq : ℚ) :
    ∀ (fuel : Nat) (t prev x : ℚ), x ∈ (cbLoop mat freq fuel t prev).1 →
      ONE_DAY < mat - x := by
  intro fuel
  induction fuel with
  | zero => intro t prev x hx; simp [cbLoop] at hx
  | succ n ih =>
      intro t prev x hx
      by_cases h : ONE_DAY < mat - t
      · rw [cbLoop, if_pos h] at hx
        rcases List.mem_cons.mp hx with rfl | hx
        · exact h
        · exact ih _ _ x hx
      · rw [cbLoop, if_neg h] at hx; simp at hx

lemma cbLoop_chain (mat freq : ℚ) :
    ∀ (fuel : Nat) (t prev : ℚ),
      List.Chain (fun a b => b = a + freq) (t - freq) (cbLoop mat freq fuel t prev).1 := by
  intro fuel
  induction fuel with
  | zero => intro t prev; simp [cbLoop]
  | succ n ih =>
      intro t prev
      by_cases h : ONE_DAY < mat - t
      · rw [cbLoop, if_pos h]
        refine List.Chain.cons (by ring) ?_
        have := ih (t + freq) t
        simpa using this
      · rw [cbLoop, if_neg h]; exact List.Chain.nil

lemma cbLoop_stop (mat freq : ℚ) :
    ∀ (fuel : Nat) (t prev : ℚ), mat - t - ONE_DAY < (fuel : ℚ) * freq →
      mat - (t + (((cbLoop mat freq fuel t prev).1.length : ℚ)) * freq) ≤ ONE_DAY := by
  intro fuel
  induction fuel with
  | zero =>
      intro t prev ht
      simp only [cbLoop, List.length_nil, Nat.cast_zero, zero_mul, add_zero]
      push_cast at ht
      linarith
  | succ n ih =>
      intro t prev ht
      by_cases h : ONE_DAY < mat - t
      · rw [cbLoop, if_pos h]
        have ht' : mat - (t + freq) - ONE_DAY < (n : ℚ) * freq := by
          push_cast at ht ⊢; linarith
        have := ih (t + freq) t ht'
        simp only [List.length_cons]
        push_cast
        push_cast at this
        linarith
      · rw [cbLoop, if_neg h]
        simp only [List.length_nil, Nat.cast_zero, zero_mul, add_zero]
        linarith

lemma cbLoop_dt_diffs (mat freq : ℚ) :
    ∀ (fuel : Nat) (t prev : ℚ),
      (cbLoop mat freq fuel t prev).2
          ++ [mat - (cbLoop mat freq fuel t prev).1.getLastD prev]
        = diffs (prev :: ((cbLoop mat freq fuel t prev).1 ++ [mat])) := by
  intro fuel
  induction fuel with
  | zero => intro t prev; simp [cbLoop, diffs]
  | succ n ih =>
      intro t prev
      by_cases h : ONE_DAY < mat - t
      · rw [cbLoop, if_pos h]
        simp only [List.getLastD_cons, List.cons_append]
        rw [diffs, ← ih (t + freq) t]
      · rw [cbLoop, if_neg h]
        simp [diffs]

lemma diffs_length : ∀ l : List ℚ, (diffs l).length = l.length - 1 := by
  intro l
  match l with
  | [] => simp [diffs]
  | [a] => simp [diffs]
  | a :: b :: rest =>
      rw [diffs]
      have := diffs_length (b :: rest)
      simp only [List.length_cons] at this ⊢
      omega

lemma diffs_getD : ∀ (l : List ℚ) (i : Nat), i + 1 < l.length →
    (diffs l).getD i 0 = l.getD (i + 1) 0 - l.getD i 0 := by
  intro l
  match l with
  | [] => intro i hi; simp at hi
  | [a] => intro i hi; simp at hi
  | a :: b :: rest =>
      intro i hi
      match i with
      | 0 => simp [diffs]
      | j + 1 =>
          rw [diffs]
          simp only [List.getD_cons_succ]
          exact diffs_getD (b :: rest) j (by simpa using hi)

/-- The accrual loop of `ContingentBond::payoffs` as an indexed sum over the
periods. -/
lemma cbAccrue_eq_sum (cpn smooth : ℚ) :
    ∀ (dt : List ℚ) (path : List ScenEntry), path.length = dt.length + 1 →
      cbAccrue cpn smooth path dt
        = ∑ i ∈ Finset.range dt.length,
            cbDigital smooth (path.getD i default).fwd (path.getD (i + 1) default).fwd
              * ((path.getD i default).libor + cpn) * dt.getD i 0
              / (path.getD (i + 1) default).num := by
  intro dt
  induction dt with
  | nil =>
      intro path hlen
      rcases path with _ | ⟨e, path⟩
      · simp at hlen
      · rcases path with _ | ⟨e1, path⟩
        · simp [cbAccrue]
        · simp at hlen
  | cons d ds ih =>
      intro path hlen
      rcases path with _ | ⟨e0, path⟩
      · simp at hlen
      · rcases path with _ | ⟨e1, path⟩
        · simp at hlen
        · have hlen' : (e1 :: path).length = ds.length + 1 := by
            simpa using hlen
          rw [show cbAccrue cpn smooth (e0 :: e1 :: path) (d :: ds)
              = cbDigital smooth e0.fwd e1.fwd * (e0.libor + cpn) * d / e1.num
                + cbAccrue cpn smooth (e1 :: path) ds from rfl]
          rw [ih (e1 :: path) hlen']
          simp only [List.length_cons]
          rw [Finset.sum_range_succ']
          simp only [List.getD_cons_succ, List.getD_cons_zero]
          ring

/-- Width of the `Europeans` output: the sum of the strike counts. -/
lemma europeansPayoffs_length :
    ∀ (ks : List (List ℚ)) (es : List ScenEntry), ks.length = es.length →
      (europeansPayoffs ks es).length = (ks.map List.length).sum := by
  intro ks
  induction ks with
  | nil => intro es h; simp [europeansPayoffs]
  | cons k0 krest ih =>
      intro es h
      rcases es with _ | ⟨e0, erest⟩
      · simp at h
      · rw [show europeansPayoffs (k0 :: krest) (e0 :: erest)
            = k0.map (fun k => max (e0.fwd - k) 0 / e0.num)
              ++ europeansPayoffs krest erest from rfl]
        simp only [List.length_append, List.length_map, List.map_cons, List.sum_cons]
        rw [ih erest (by simpa using h)]

/-- The `Europeans` output is the concatenation, maturity major, of the
per-maturity strike transforms. -/
lemma europeansPayoffs_flatten :
    ∀ (ks : List (List ℚ)) (es : List ScenEntry), ks.length = es.length →
      europeansPayoffs ks es
        = ((ks.zip es).map
            (fun p => p.1.map (fun k => max (p.2.fwd - k) 0 / p.2.num))).flatten := by
  intro ks
  induction ks with
  | nil => intro es h; simp [europeansPayoffs]
  | cons k0 krest ih =>
      intro es h
      rcases es with _ | ⟨e0, erest⟩
      · simp at h
      · rw [show europeansPayoffs (k0 :: krest) (e0 :: erest)
            = k0.map (fun k => max (e0.fwd - k) 0 / e0.num)
              ++ europeansPayoffs krest erest from rfl]
        rw [ih erest (by simpa using h)]
        simp [List.zip_cons_cons]

/-- Position of strike `j` of maturity `i` in the `Europeans` output: after
all the strikes of the earlier maturities. -/
lemma europeansPayoffs_getD :
    ∀ (ks : List (List ℚ)) (es : List ScenEntry) (i j : Nat),
      ks.length = es.length → i < ks.length → j < (ks.getD i []).length →
      (europeansPayoffs ks es).getD (((ks.take i).map List.length).sum + j) 0
        = max ((es.getD i default).fwd - (ks.getD i []).getD j 0) 0
            / (es.getD i default).num := by
  intro ks
  induction ks with
  | nil => intro es i j h hi hj; simp at hi
  | cons k0 krest ih =>
      intro es i j h hi hj
      rcases es with _ | ⟨e0, erest⟩
      · simp at h
      · rw [show europeansPayoffs (k0 :: krest) (e0 :: erest)
            = k0.map (fun k => max (e0.fwd - k) 0 / e0.num)
              ++ europeansPayoffs krest erest from rfl]
        match i with
        | 0 =>
            simp only [List.take_zero, List.map_nil, List.sum_nil, Nat.zero_add,
              List.getD_cons_zero]
            simp only [List.getD_cons_zero] at hj
            have hj' : j < (k0.map (fun k => max (e0.fwd - k) 0 / e0.num)).length := by
              simpa using hj
            rw [List.getD_append _ _ _ _ hj', List.getD_eq_getElem _ _ hj',
              List.getElem_map, ← List.getD_eq_getElem k0 0 (by simpa using hj)]
        | i' + 1 =>
            simp only [List.take_succ_cons, List.map_cons, List.sum_cons,
              List.getD_cons_succ]
            rw [Nat.add_assoc,
              show k0.length = (k0.map (fun k => max (e0.fwd - k) 0 / e0.num)).length
                by simp,
              List.getD_append_right _ _ _ _ (Nat.le_add_right _ _)]
            simp only [Nat.add_sub_cancel_left]
            exact ih erest i' j (by simpa using h) (by simpa using hi)
              (by simpa using hj)

/-! ## Claim theorems -/

/-- C1: `UOC::payoffs` walks the path with `alive` starting at 1: a forward
above `barrier + smooth` zeroes `alive` and short-circuits, so later nodes
cannot change the result; a forward in the fuzzy band multiplies `alive` by
the linear ramp `(barSmooth - forward) / (2 * smooth)`; any other forward
leaves `alive` unchanged.  The outputs are
`payoffs[1] = max(fwd_last - strike, 0) / num_last` and
`payoffs[0] = alive * payoffs[1]`.  On a single monitored node with positive
smoothing width `smooth = fwd * sf`, `alive` is 1/2 at the barrier, 1 at
`barrier - smooth` and 0 at `barrier + smooth`. -/
theorem uoc_payoffs_spec :
    (∀ (barrier smooth a : ℚ) (e : ScenEntry) (rest rest' : List ScenEntry),
        barrier + smooth < e.fwd →
        uocAlive barrier smooth a (e :: rest) = 0 ∧
        uocAlive barrier smooth a (e :: rest) = uocAlive barrier smooth a (e :: rest'))
    ∧ (∀ (barrier smooth a : ℚ) (e : ScenEntry) (rest : List ScenEntry),
        ¬ barrier + smooth < e.fwd → barrier - smooth < e.fwd →
        uocAlive barrier smooth a (e :: rest)
          = uocAlive barrier smooth (a * ((barrier + smooth - e.fwd) / (2 * smooth))) rest)
    ∧ (∀ (barrier smooth a : ℚ) (e : ScenEntry) (rest : List ScenEntry),
        ¬ barrier + smooth < e.fwd → ¬ barrier - smooth < e.fwd →
        uocAlive barrier smooth a (e :: rest) = uocAlive barrier smooth a rest)
    ∧ (∀ (strike barrier sf : ℚ) (e : ScenEntry) (rest : List ScenEntry),
        uocPayoffs strike barrier sf (e :: rest)
          = some [uocAlive barrier (e.fwd * sf) 1 (e :: rest)
                    * (max (((e :: rest).getLast (List.cons_ne_nil e rest)).fwd - strike) 0
                        / ((e :: rest).getLast (List.cons_ne_nil e rest)).num),
                  max (((e :: rest).getLast (List.cons_ne_nil e rest)).fwd - strike) 0
                    / ((e :: rest).getLast (List.cons_ne_nil e rest)).num])
    ∧ (∀ (barrier sf : ℚ) (e : ScenEntry), 0 < e.fwd * sf → e.fwd = barrier →
        uocAlive barrier (e.fwd * sf) 1 [e] = 1 / 2)
    ∧ (∀ (barrier sf : ℚ) (e : ScenEntry), 0 < e.fwd * sf → e.fwd = barrier - e.fwd * sf →
        uocAlive barrier (e.fwd * sf) 1 [e] = 1)
    ∧ (∀ (barrier sf : ℚ) (e : ScenEntry), 0 < e.fwd * sf → e.fwd = barrier + e.fwd * sf →
        uocAlive barrier (e.fwd * sf) 1 [e] = 0) := by
  refine ⟨?_, ?_, ?_, ?_, ?_, ?_, ?_⟩
  · intro barrier smooth a e rest rest' h
    constructor
    · rw [uocAlive, if_pos h]
    · rw [uocAlive, if_pos h, uocAlive, if_pos h]
  · intro barrier smooth a e rest h1 h2
    rw [uocAlive, if_neg h1, if_pos h2]
  · intro barrier smooth a e rest h1 h2
    rw [uocAlive, if_neg h1, if_neg h2]
  · intro strike barrier sf e rest
    rfl
  · intro barrier sf e hs hf
    rw [uocAlive, if_neg (by linarith), if_pos (by linarith), uocAlive]
    have hnum : barrier + e.fwd * sf - e.fwd = e.fwd * sf := by linarith
    rw [hnum, one_mul]
    have hne : e.fwd * sf ≠ 0 := ne_of_gt hs
    field_simp
    ring
  · intro barrier sf e hs hf
    rw [uocAlive, if_neg (by linarith), if_neg (by linarith), uocAlive]
  · intro barrier sf e hs hf
    rw [uocAlive, if_neg (by linarith), if_pos (by linarith), uocAlive]
    have hnum : barrier + e.fwd * sf - e.fwd = 0 := by linarith
    rw [hnum, zero_div, mul_zero]

/-- C1 witness: a single node at the barrier (forward 100, smoothing
fraction 1/10, barrier 100) leaves the option half alive. -/
theorem uoc_payoffs_spec_witness :
    uocAlive 100 ((100:ℚ) * (1/10)) 1 [⟨100, 1, 0, 1⟩] = 1 / 2 :=
  uoc_payoffs_spec.2.2.2.2.1 100 (1/10) ⟨100, 1, 0, 1⟩ (by norm_num) (by norm_num)

/-- C5: `European::payoffs` writes exactly one value,
`max(forward_settle - strike, 0) * discount_settle / numeraire_exercise`;
with discount 1 it is `max(F - K, 0) / N`. -/
theorem european_payoffs_spec :
    (∀ (strike : ℚ) (e : ScenEntry) (rest : List ScenEntry),
        europeanPayoffs strike (e :: rest)
          = some [max (e.fwd - strike) 0 * e.disc / e.num])
    ∧ (∀ strike F N : ℚ,
        europeanPayoffs strike [⟨F, 1, 0, N⟩] = some [max (F - strike) 0 / N]) := by
  constructor
  · intro strike e rest; rfl
  · intro strike F N; simp [europeanPayoffs]

/-- C6: the second output of `UOC::payoffs` equals the payoff a plain
`European` with the same strike computes on the final path node with
discount factor 1. -/
theorem uoc_european_decomposition :
    ∀ (strike barrier sf : ℚ) (e : ScenEntry) (rest : List ScenEntry),
      ∃ l : List ℚ,
        uocPayoffs strike barrier sf (e :: rest) = some l ∧
        europeanPayoffs strike
            [⟨((e :: rest).getLast (List.cons_ne_nil e rest)).fwd, 1, 0,
              ((e :: rest).getLast (List.cons_ne_nil e rest)).num⟩]
          = some [l.getD 1 0] := by
  intro strike barrier sf e rest
  refine ⟨_, rfl, ?_⟩
  simp [europeanPayoffs, uocPayoffs]

/-- C2: `ContingentBond::payoffs` returns the single value equal to the sum
over periods of `digital_i * (libor_i + cpn) * dt_i / num_end(i)` plus a
terminal `1 / num_final`, where the digital is 1 above the band, 0 below it
and the symmetric ramp inside; with positive `smooth`, a zero period return
gives digital 1/2, a return of `+smooth` gives 1 and `-smooth` gives 0. -/
theorem cb_payoffs_spec :
    (∀ (cpn sf : ℚ) (dt : List ℚ) (e : ScenEntry) (rest : List ScenEntry),
        (e :: rest : List ScenEntry).length = dt.length + 1 →
        cbPayoffs cpn sf dt (e :: rest)
          = some [(∑ i ∈ Finset.range dt.length,
              cbDigital (e.fwd * sf) ((e :: rest).getD i default).fwd
                  ((e :: rest).getD (i + 1) default).fwd
                * (((e :: rest).getD i default).libor + cpn) * dt.getD i 0
                / ((e :: rest).getD (i + 1) default).num)
              + 1 / ((e :: rest).getLast (List.cons_ne_nil e rest)).num])
    ∧ (∀ smooth s : ℚ, 0 < smooth → cbDigital smooth s s = 1 / 2)
    ∧ (∀ smooth s0 s1 : ℚ, 0 < smooth → s1 - s0 = smooth →
        cbDigital smooth s0 s1 = 1)
    ∧ (∀ smooth s0 s1 : ℚ, 0 < smooth → s1 - s0 = -smooth →
        cbDigital smooth s0 s1 = 0) := by
  refine ⟨?_, ?_, ?_, ?_⟩
  · intro cpn sf dt e rest hlen
    have h0 : cbPayoffs cpn sf dt (e :: rest)
        = some [cbAccrue cpn (e.fwd * sf) (e :: rest) dt
            + 1 / ((e :: rest).getLast (List.cons_ne_nil e rest)).num] := rfl
    rw [h0, cbAccrue_eq_sum cpn (e.fwd * sf) dt (e :: rest) hlen]
  · intro smooth s hs
    rw [cbDigital, if_neg (by linarith), if_neg (by linarith)]
    have hnum : s - s + smooth = smooth := by ring
    rw [hnum]
    have hne : smooth ≠ 0 := ne_of_gt hs
    field_simp
    ring
  · intro smooth s0 s1 hs hr
    rw [cbDigital, if_neg (by linarith), if_neg (by linarith)]
    have hnum : s1 - s0 + smooth = 2 * smooth := by linarith
    rw [hnum]
    exact div_self (by positivity)
  · intro smooth s0 s1 hs hr
    rw [cbDigital, if_neg (by linarith), if_neg (by linarith)]
    have hnum : s1 - s0 + smooth = 0 := by linarith
    rw [hnum, zero_div]

/-- C2 witness: a zero period return with smoothing half-width 1 gives a
digital of one half. -/
theorem cb_payoffs_spec_witness : cbDigital 1 0 0 = 1 / 2 :=
  cb_payoffs_spec.2.1 1 0 (by norm_num)

/-- C9: the interpolation branch of the `ContingentBond` digital is guarded
only by the two strict comparisons; with `0 < smooth` its divisor
`2 * smooth` is nonzero, while with `smooth = 0` (zero smoothing fraction or
zero first forward) the branch is reached exactly when `s1 = s0` and divides
by zero; the digital feeds directly into the accrual of the payoff. -/
theorem cb_digital_division_guard :
    (∀ smooth s0 s1 : ℚ, 0 < smooth →
        cbDigitalChecked smooth s0 s1 = some (cbDigital smooth s0 s1))
    ∧ (∀ s0 s1 : ℚ, (cbDigitalChecked 0 s0 s1 = none ↔ s1 = s0))
    ∧ (∀ f sf : ℚ, sf = 0 ∨ f = 0 → f * sf = 0)
    ∧ (∀ (cpn smooth : ℚ) (e0 e1 : ScenEntry) (rest : List ScenEntry)
        (d : ℚ) (ds : List ℚ),
        cbAccrue cpn smooth (e0 :: e1 :: rest) (d :: ds)
          = cbDigital smooth e0.fwd e1.fwd * (e0.libor + cpn) * d / e1.num
            + cbAccrue cpn smooth (e1 :: rest) ds) := by
  refine ⟨?_, ?_, ?_, ?_⟩
  · intro smooth s0 s1 hs
    rw [cbDigitalChecked, cbDigital]
    by_cases h1 : smooth < s1 - s0
    · rw [if_pos h1, if_pos h1]
    · rw [if_neg h1, if_neg h1]
      by_cases h2 : s1 - s0 < -smooth
      · rw [if_pos h2, if_pos h2]
      · rw [if_neg h2, if_neg h2, if_neg (by positivity)]
  · intro s0 s1
    constructor
    · intro h
      rw [cbDigitalChecked] at h
      split_ifs at h with h1 h2 h3
      have h1' := not_lt.mp h1
      have h2' := not_lt.mp h2
      linarith
    · intro h
      rw [h, cbDigitalChecked, if_neg (by simp), if_neg (by simp),
        if_pos (by norm_num)]
  · intro f sf h
    rcases h with h | h
    · rw [h, mul_zero]
    · rw [h, zero_mul]
  · intro cpn smooth e0 e1 rest d ds
    rfl

/-- C9 witness: with smoothing half-width 1 the checked digital is total. -/
theorem cb_digital_division_guard_witness :
    cbDigitalChecked 1 0 0 = some (cbDigital 1 0 0) :=
  cb_digital_division_guard.1 1 0 0 (by norm_num)

/-- C10: the coverage vector `myDt` of `ContingentBond` has exactly one entry
per timeline interval, and `myDt[i]` equals `timeline[i+1] - timeline[i]`, so
the coverage used in accrual period `i` is the year-fraction length of the
`i`-th timeline interval. -/
theorem cb_dt_invariant :
    ∀ sys mat freq : ℚ,
      (cbDt sys mat freq).length + 1 = (cbTimeline sys mat freq).length
      ∧ ∀ i : Nat, i < (cbDt sys mat freq).length →
          (cbDt sys mat freq).getD i 0
            = (cbTimeline sys mat freq).getD (i + 1) 0
              - (cbTimeline sys mat freq).getD i 0 := by
  intro sys mat freq
  have hd : cbDt sys mat freq = diffs (cbTimeline sys mat freq) := by
    simp only [cbDt, cbTimeline, cbSched]
    exact cbLoop_dt_diffs mat freq (schedFuel sys mat freq) (sys + freq) sys
  have hpos : 0 < (cbTimeline sys mat freq).length := by
    rw [cbTimeline]; simp
  constructor
  · rw [hd, diffs_length]
    omega
  · intro i hi
    rw [hd] at hi ⊢
    rw [diffs_length] at hi
    exact diffs_getD (cbTimeline sys mat freq) i (by omega)

/-- C10 witness: the half-year schedule to maturity 1 has coverages matching
its timeline differences at index 0. -/
theorem cb_dt_invariant_witness :
    (cbDt 0 1 (1/2)).getD 0 0
      = (cbTimeline 0 1 (1/2)).getD 1 0 - (cbTimeline 0 1 (1/2)).getD 0 0 :=
  (cb_dt_invariant 0 1 (1/2)).2 0 (by norm_num [cbDt, cbSched, cbLoop, schedFuel, ONE_DAY])

/-- C3: with positive frequency and maturity after the system date, both
timelines start at the system date, step by the frequency exactly while the
remaining time to maturity exceeds the tolerance (one hour for UOC, one day
for ContingentBond), and end with maturity exactly; every interior node
keeps more than the tolerance to maturity, and the next regular grid step
after the last interior node would land within the tolerance. -/
theorem schedule_construction :
    ∀ sys mat freq : ℚ, 0 < freq → sys < mat →
      (uocTimeline sys mat freq = sys :: (uocMonitorNodes sys mat freq ++ [mat])
        ∧ (uocTimeline sys mat freq).getLast? = some mat
        ∧ List.Chain (fun a b => b = a + freq) sys (uocMonitorNodes sys mat freq)
        ∧ (∀ x ∈ uocMonitorNodes sys mat freq, ONE_HOUR < mat - x)
        ∧ mat - (sys + freq + ((uocMonitorNodes sys mat freq).length : ℚ) * freq)
            ≤ ONE_HOUR)
      ∧ (cbTimeline sys mat freq = sys :: ((cbSched sys mat freq).1 ++ [mat])
        ∧ (cbTimeline sys mat freq).getLast? = some mat
        ∧ List.Chain (fun a b => b = a + freq) sys (cbSched sys mat freq).1
        ∧ (∀ x ∈ (cbSched sys mat freq).1, ONE_DAY < mat - x)
        ∧ mat - (sys + freq + (((cbSched sys mat freq).1.length : ℚ)) * freq)
            ≤ ONE_DAY) := by
  intro sys mat freq hf hm
  have hOH : (0 : ℚ) < ONE_HOUR := by norm_num [ONE_HOUR]
  have hOD : (0 : ℚ) < ONE_DAY := by norm_num [ONE_DAY]
  have hfuel := schedFuel_mul sys mat freq hf
  refine ⟨⟨rfl, ?_, ?_, ?_, ?_⟩, rfl, ?_, ?_, ?_, ?_⟩
  · rw [uocTimeline,
      show sys :: (uocMonitorNodes sys mat freq ++ [mat])
        = (sys :: uocMonitorNodes sys mat freq) ++ [mat] from rfl,
      List.getLast?_concat]
  · have h := uocLoop_chain mat freq (schedFuel sys mat freq) (sys + freq)
    rw [add_sub_cancel_right] at h
    exact h
  · intro x hx
    exact uocLoop_mem mat freq _ _ x hx
  · exact uocLoop_stop mat freq _ (sys + freq) (by linarith)
  · rw [cbTimeline,
      show sys :: ((cbSched sys mat freq).1 ++ [mat])
        = (sys :: (cbSched sys mat freq).1) ++ [mat] from rfl,
      List.getLast?_concat]
  · have h := cbLoop_chain mat freq (schedFuel sys mat freq) (sys + freq) sys
    rw [add_sub_cancel_right] at h
    exact h
  · intro x hx
    exact cbLoop_mem mat freq _ _ _ x hx
  · exact cbLoop_stop mat freq _ (sys + freq) sys (by linarith)

/-- C3 witness: with quarterly monitoring to maturity 1, the final UOC
timeline node is the maturity. -/
theorem schedule_construction_witness :
    (uocTimeline 0 1 (1/4)).getLast? = some 1 :=
  (schedule_construction 0 1 (1/4) (by norm_num) (by norm_num)).1.2.1

/-- C4: the `Europeans` timeline is the list of the supplied (ascending)
maturities; the output is maturity major: its width is the sum of the strike
counts, and the entry at offset `sum of earlier counts + j` is
`max(fwd_i - k_ij, 0) / num_i`; for `[T1: {90,100}, T2: {95}]` the width is
3 and the entries are T1/90, T1/100, T2/95 in that order. -/
theorem europeans_spec :
    (∀ options : List (ℚ × List ℚ),
        europeansTimeline options = options.map Prod.fst
        ∧ (List.Sorted (· < ·) (options.map Prod.fst) →
            List.Sorted (· < ·) (europeansTimeline options)))
    ∧ (∀ (ks : List (List ℚ)) (es : List ScenEntry), ks.length = es.length →
        (europeansPayoffs ks es).length = (ks.map List.length).sum)
    ∧ (∀ (ks : List (List ℚ)) (es : List ScenEntry), ks.length = es.length →
        europeansPayoffs ks es
          = ((ks.zip es).map
              (fun p => p.1.map (fun k => max (p.2.fwd - k) 0 / p.2.num))).flatten)
    ∧ (∀ (ks : List (List ℚ)) (es : List ScenEntry) (i j : Nat),
        ks.length = es.length → i < ks.length → j < (ks.getD i []).length →
        (europeansPayoffs ks es).getD (((ks.take i).map List.length).sum + j) 0
          = max ((es.getD i default).fwd - (ks.getD i []).getD j 0) 0
              / (es.getD i default).num)
    ∧ (∀ T1 T2 f1 n1 f2 n2 : ℚ,
        europeansTimeline [(T1, [90, 100]), (T2, [95])] = [T1, T2]
        ∧ europeansPayoffs (europeansStrikes [(T1, [90, 100]), (T2, [95])])
            [⟨f1, 1, 0, n1⟩, ⟨f2, 1, 0, n2⟩]
          = [max (f1 - 90) 0 / n1, max (f1 - 100) 0 / n1, max (f2 - 95) 0 / n2]) := by
  refine ⟨?_, europeansPayoffs_length, europeansPayoffs_flatten,
    europeansPayoffs_getD, ?_⟩
  · intro options
    exact ⟨rfl, fun h => h⟩
  · intro T1 T2 f1 n1 f2 n2
    constructor
    · rfl
    · simp [europeansPayoffs, europeansStrikes]

/-- C4 witness: with strikes 90 and 100 at the first maturity and 95 at the
second, the output width is the total strike count. -/
theorem europeans_spec_witness :
    (europeansPayoffs [[90, 100], [95]] [⟨105, 1, 0, 1⟩, ⟨98, 1, 0, 2⟩]).length
      = (([[90, 100], [95]] : List (List ℚ)).map List.length).sum :=
  europeans_spec.2.1 [[90, 100], [95]] [⟨105, 1, 0, 1⟩, ⟨98, 1, 0, 2⟩] rfl

/-- C7 counterexample: construction does not fail fast on configuration
errors: an empty strike mapping yields an `Europeans` product whose timeline
is empty, and a maturity equal to the system date yields the degenerate UOC
timeline `[0, 0]` — in both cases a product is produced. -/
theorem construction_validation_cex :
    europeansTimeline ([] : List (ℚ × List ℚ)) = []
    ∧ uocTimeline 0 0 1 = [0, 0] := by
  constructor
  · rfl
  · norm_num [uocTimeline, uocMonitorNodes, uocLoop, schedFuel, ONE_HOUR]

/-- C7 amended: construction performs no input validation and always
produces a product: with positive frequency and maturity not after the
system date, the UOC and ContingentBond timelines degenerate to
`[systemDate, maturity]` (with a single ContingentBond coverage), and an
empty strike mapping yields an `Europeans` product with empty timeline and
empty output. -/
theorem construction_no_validation :
    (∀ sys mat freq : ℚ, 0 < freq → mat ≤ sys →
        uocTimeline sys mat freq = [sys, mat])
    ∧ (∀ sys mat freq : ℚ, 0 < freq → mat ≤ sys →
        cbTimeline sys mat freq = [sys, mat] ∧ cbDt sys mat freq = [mat - sys])
    ∧ europeansTimeline ([] : List (ℚ × List ℚ)) = []
    ∧ europeansPayoffs (europeansStrikes ([] : List (ℚ × List ℚ)))
        ([] : List ScenEntry) = [] := by
  have hOH : (0 : ℚ) < ONE_HOUR := by norm_num [ONE_HOUR]
  have hOD : (0 : ℚ) < ONE_DAY := by norm_num [ONE_DAY]
  refine ⟨?_, ?_, rfl, rfl⟩
  · intro sys mat freq hf hm
    rw [uocTimeline, uocMonitorNodes, schedFuel, uocLoop,
      if_neg (by rw [not_lt]; linarith)]
    simp
  · intro sys mat freq hf hm
    have hsched : cbSched sys mat freq = ([], []) := by
      rw [cbSched, schedFuel, cbLoop, if_neg (by rw [not_lt]; linarith)]
    constructor
    · rw [cbTimeline, hsched]
      simp
    · rw [cbDt, hsched]
      simp [List.getLastD]

/-- C7 witness: a maturity equal to the system date still yields the
two-node UOC timeline. -/
theorem construction_no_validation_witness : uocTimeline 0 0 1 = [0, 0] :=
  construction_no_validation.1 0 0 1 (by norm_num) (le_refl 0)

/-- C8 counterexample: `European::payoffs` does not fail on a path longer
than its one-node timeline: on a two-node path it silently returns the
payoff computed from the first node. -/
theorem payoffs_length_check_cex :
    (europeanTimeline 1).length = 1
    ∧ europeanPayoffs 100 [⟨110, 1, 0, 1⟩, ⟨0, 0, 0, 1⟩] = some [10] := by
  constructor
  · rfl
  · norm_num [europeanPayoffs]

/-- C8 amended: `payoffs` performs no length validation: `European::payoffs`
reads only the first path node, so a path longer than the one-node timeline
is silently accepted and its extra entries are ignored; a mismatched call is
not detected (the out-of-bounds read on an empty path is undefined
behaviour, modelled as `none`, not a guaranteed loud failure). -/
theorem payoffs_no_length_validation :
    (∀ (strike : ℚ) (e : ScenEntry) (rest : List ScenEntry),
        europeanPayoffs strike (e :: rest) = europeanPayoffs strike [e])
    ∧ (∀ strike : ℚ, europeanPayoffs strike [] = none) := by
  exact ⟨fun strike e rest => rfl, fun strike => rfl⟩
